import Mathlib

/-!
Shallow embedding of the Polly dialogue builder (`src/app.py`).

The app keeps an ordered list of speakers (voice name, multi-line text, pause
in milliseconds).  On "Generate" it iterates the speakers in order, splits each
speaker's text into stripped non-empty lines, synthesizes each line (aborting
the whole run on the first synthesis error), appends a block of zero bytes
after a speaker when its pause is non-zero, and finally concatenates all byte
chunks into one artifact, or warns when there is nothing to synthesize.

Strings are modelled as Lean `String`; the splitting and stripping functions
are written structurally over `String.data` so that concrete runs reduce in
the kernel.  Newline handling models the `"\n"` boundaries produced by the
text-area widget; Python's `str.strip` default whitespace is modelled by
`Char.isWhitespace`.
-/

/-- One speaker entry of `st.session_state.speakers`:
`{"voice": ..., "lines": ..., "pause": ...}` (`src/app.py` line 60). -/
structure Turn where
  voice : String
  lines : String
  pause : Nat
deriving DecidableEq, Repr

/-- One call to `synth_line(polly, text, voice, engine, sample_rate)`
(`src/app.py` lines 16-24, called at line 120). -/
structure Request where
  text : String
  voice : String
  engine : String
  rate : String
deriving DecidableEq, Repr

/-- The error surfaced by
`st.error(f"Polly error with voice {sp['voice']} -> {e}")` (line 122):
the offending voice id together with the underlying cause. -/
structure SynthErr where
  voiceId : String
  cause : String
deriving DecidableEq, Repr

/-- One element of `audio_chunks`: either the bytes returned by a synthesis
call, or a run of `count` zero bytes produced for a pause (lines 124-128). -/
inductive Segment where
  | speech (bytes : List Nat)
  | silence (count : Nat)
deriving DecidableEq, Repr

/-- The byte content of a segment: speech bytes, or `b'\0' * count`. -/
def segBytes : Segment → List Nat
  | .speech b => b
  | .silence n => List.replicate n 0

/-- The kind of a segment, forgetting the bytes. -/
inductive SegKind where
  | speech
  | silence
deriving DecidableEq, Repr

/-- Forget a segment's payload, keeping only its kind. -/
def Segment.kind : Segment → SegKind
  | .speech _ => .speech
  | .silence _ => .silence

/-- Outcome of a completed generate run: the `st.warning` branch when
`audio_chunks` is empty, or the concatenated artifact (lines 130-138). -/
inductive GenResult where
  | emptyDialogue
  | artifact (bytes : List Nat)
deriving DecidableEq, Repr

/-- Python `str.splitlines` restricted to `"\n"` boundaries, structurally on
the character list: `""` yields no lines and a trailing newline does not
contribute an empty final line. -/
def splitlinesCh : List Char → List (List Char)
  | [] => []
  | c :: cs =>
    if c = '\n' then
      [] :: splitlinesCh cs
    else
      match splitlinesCh cs with
      | [] => [[c]]
      | l :: ls => (c :: l) :: ls

/-- Python `str.strip()` on a character list: drop leading and trailing
whitespace. -/
def pyStrip (l : List Char) : List Char :=
  ((l.dropWhile Char.isWhitespace).reverse.dropWhile Char.isWhitespace).reverse

/-- `s.splitlines()` at the `String` level. -/
def pySplitlines (s : String) : List String :=
  (splitlinesCh s.data).map fun l => String.mk l

/-- `s.strip()` at the `String` level. -/
def pyStripStr (s : String) : String :=
  String.mk (pyStrip s.data)

/-- The line-splitting loop of the generate block (lines 117-118):
`for line in sp["lines"].splitlines(): if line := line.strip(): ...` —
strip every line, keep the non-empty ones, in order. -/
def utterances (s : String) : List String :=
  ((pySplitlines s).map pyStripStr).filter fun l => l ≠ ""

example : utterances "Hello!\nHow are you?" = ["Hello!", "How are you?"] := by decide
example : utterances "  Hi \n\n \nBye" = ["Hi", "Bye"] := by decide
example : utterances "" = [] := by decide
example : utterances " \n \n" = [] := by decide

/-- Round `a / b` to the nearest integer, ties to even (`b > 0`): the
rounding mode of IEEE-754 binary64 arithmetic. -/
def roundHalfEven (a b : Nat) : Nat :=
  let d := a / b
  let r := a % b
  if 2 * r < b then d
  else if b < 2 * r then d + 1
  else if d % 2 = 0 then d else d + 1

/-- Floor of the base-2 logarithm, written with structural fuel so that it
reduces in the kernel (`log2Fuel n n` suffices for every `n`). -/
def log2Fuel : Nat → Nat → Nat
  | 0, _ => 0
  | fuel + 1, n => if 2 ≤ n then log2Fuel fuel (n / 2) + 1 else 0

/-- `natLog2 n` is the floor of `log2 n` for `n ≥ 1`, and `0` at `0`. -/
def natLog2 (n : Nat) : Nat :=
  log2Fuel n n

/-- Round the positive rational `p / q` to an IEEE-754 binary64 under
round-to-nearest-even, returning the exact value of that double as a dyadic
pair `(m, e)` meaning `m * 2 ^ e`.  Exact for values in the binary64 normal
range, which covers every quantity arising at line 127 of the source. -/
def roundFloatPQ (p q : Nat) : Nat × Int :=
  if p = 0 ∨ q = 0 then (0, 0)
  else
    let k : Int :=
      if q ≤ p then (natLog2 (p / q) : Int)
      else
        let s := natLog2 (q / p)
        if q ≤ p * 2 ^ s then -(s : Int) else -(s : Int) - 1
    let m :=
      if 0 ≤ 52 - k then roundHalfEven (p * 2 ^ (52 - k).toNat) q
      else roundHalfEven p (q * 2 ^ (k - 52).toNat)
    (m, k - 52)

/-- `silence_bytes = b'\0' * int(22050 * (silence_ms / 1000))` (line 127),
modelled exactly as Python evaluates it: `silence_ms / 1000` is rounded to a
binary64, the product with 22050 is rounded to a binary64 again, and `int`
truncates the (positive) result toward zero — all reproduced here in exact
integer arithmetic.  The byte count uses the hard-coded 22050 constant,
never the selected sample rate or engine.  Because of the float-first
division this differs from the exact `22050 * ms / 1000` at some pauses
(700, 1400, 2300 and 2800 ms among the slider's values), where it is one
byte fewer. -/
def silenceLen (ms : Nat) : Nat :=
  let d1 := roundFloatPQ ms 1000
  let p1 := 22050 * d1.1
  let d2 :=
    if 0 ≤ d1.2 then roundFloatPQ (p1 * 2 ^ d1.2.toNat) 1
    else roundFloatPQ p1 (2 ^ (-d1.2).toNat)
  if 0 ≤ d2.2 then d2.1 * 2 ^ d2.2.toNat else d2.1 / 2 ^ (-d2.2).toNat

example : silenceLen 500 = 11025 := by decide
example : silenceLen 700 = 15434 := by decide
example : silenceLen 1000 = 22050 := by decide
example : silenceLen 2800 = 61739 := by decide

/-- Issue the synthesis calls for one list of requests, sequentially,
stopping at the first failure (the `try/except/st.stop` of lines 119-123):
returns the requests actually issued and either the collected byte chunks or
the first raw provider error. -/
def runCalls (synth : Request → Except String (List Nat)) :
    List Request → List Request × Except String (List (List Nat))
  | [] => ([], .ok [])
  | r :: rs =>
    match synth r with
    | .error c => ([r], .error c)
    | .ok b =>
      let p := runCalls synth rs
      (r :: p.1, p.2.map fun bs => b :: bs)

/-- The synthesis requests one speaker contributes: one request per stripped
non-empty line, all with the speaker's voice and the global engine and sample
rate (line 120). -/
def turnRequests (engine rate : String) (t : Turn) : List Request :=
  (utterances t.lines).map fun u => ⟨u, t.voice, engine, rate⟩

/-- The body of the generate loop for one speaker (lines 116-128): synthesize
each line, abort on the first error wrapping it with the speaker's voice, and
when all lines succeed append a silence chunk iff `sp["pause"]` is non-zero. -/
def processTurn (synth : Request → Except String (List Nat))
    (engine rate : String) (t : Turn) :
    List Request × Except SynthErr (List Segment) :=
  let p := runCalls synth (turnRequests engine rate t)
  (p.1,
   match p.2 with
   | .error c => .error ⟨t.voice, c⟩
   | .ok bs =>
     .ok (bs.map Segment.speech ++
       if t.pause ≠ 0 then [Segment.silence (silenceLen t.pause)] else []))

/-- The whole generate loop (lines 113-128): process the speakers in order,
concatenating their chunk lists, aborting the run at the first synthesis
error.  The first component is the trace of synthesis requests issued. -/
def assembleSegs (synth : Request → Except String (List Nat))
    (engine rate : String) : List Turn → List Request × Except SynthErr (List Segment)
  | [] => ([], .ok [])
  | t :: ts =>
    let p := processTurn synth engine rate t
    match p.2 with
    | .error e => (p.1, .error e)
    | .ok segs =>
      let q := assembleSegs synth engine rate ts
      (p.1 ++ q.1, q.2.map fun rest => segs ++ rest)

/-- The generate button handler end to end (lines 113-138): run the loop;
on success, if `audio_chunks` is empty emit the "No dialogue to synthesise."
warning, otherwise write the chunks in order into one artifact. -/
def generate (synth : Request → Except String (List Nat))
    (engine rate : String) (turns : List Turn) :
    List Request × Except SynthErr GenResult :=
  let p := assembleSegs synth engine rate turns
  (p.1,
   p.2.map fun segs =>
     if segs = [] then .emptyDialogue else .artifact ((segs.map segBytes).flatten))

/-- The full list of synthesis requests a run over `turns` would issue if no
call failed, in order. -/
def planRequests (engine rate : String) (turns : List Turn) : List Request :=
  (turns.map (turnRequests engine rate)).flatten

/-- A synthesis function that always succeeds, returning `f`'s bytes. -/
def okSynth (f : Request → List Nat) : Request → Except String (List Nat) :=
  fun r => .ok (f r)

/-- Declarative per-turn segment list: one speech segment per utterance in
line order, then one silence segment iff the pause is non-zero. -/
def turnSpec (f : Request → List Nat) (engine rate : String) (t : Turn) :
    List Segment :=
  ((utterances t.lines).map fun u => Segment.speech (f ⟨u, t.voice, engine, rate⟩))
  ++ if t.pause ≠ 0 then [Segment.silence (silenceLen t.pause)] else []

/-- One entry of the provider's voice catalog (`describe_voices()["Voices"]`,
line 13): name, language code, supported engines. -/
structure Voice where
  name : String
  languageCode : String
  supportedEngines : List String
deriving DecidableEq, Repr

/-- `VOICES` (lines 48-51): the sorted names of the catalog voices whose
language equals the selected language and whose supported engines contain the
selected quality. -/
def filterVoices (catalog : List Voice) (lang tier : String) : List String :=
  ((catalog.filter fun v =>
      decide (lang = v.languageCode) && v.supportedEngines.contains tier).map
    Voice.name).insertionSort fun a b => a ≤ b

/-- The voice-validity reset at the top of the speaker expander
(lines 68-69): `if sp["voice"] not in VOICES: sp["voice"] = VOICES[0]`;
the app guarantees `VOICES` is non-empty before this point (lines 53-55). -/
def normalizeSpeaker (voices : List String) (sp : Turn) : Turn :=
  if sp.voice ∈ voices then sp else { sp with voice := voices.headD "" }

/-- `MAX_CHARS` (line 77). -/
def MAX_CHARS : Nat := 3000

/-- `char_count = len(lines.strip())` (line 82). -/
def charCount (lines : String) : Nat :=
  (pyStrip lines.data).length

/-- `remaining = MAX_CHARS - char_count` (line 83); negative values only
switch the counter caption to red (lines 86-89). -/
def remainingChars (lines : String) : Int :=
  (MAX_CHARS : Int) - (charCount lines : Int)

/-- `sp["lines"] = lines` (line 91): the text is stored unchanged, whatever
its length. -/
def storeLines (lines : String) : String :=
  lines

/-- `st.session_state.speakers.pop(del_idx)` (line 102): remove the speaker
at index `i`. -/
def removeSpeaker (speakers : List Turn) (i : Nat) : List Turn :=
  speakers.eraseIdx i

theorem runCalls_ok (f : Request → List Nat) (rs : List Request) :
    runCalls (okSynth f) rs = (rs, .ok (rs.map f)) := by
  induction rs with
  | nil => rfl
  | cons r rs ih => simp [runCalls, okSynth, ih, Except.map]

theorem processTurn_ok (f : Request → List Nat) (engine rate : String) (t : Turn) :
    processTurn (okSynth f) engine rate t =
      (turnRequests engine rate t, .ok (turnSpec f engine rate t)) := by
  simp [processTurn, runCalls_ok, turnSpec, turnRequests, List.map_map, Function.comp]

theorem assembleSegs_ok (f : Request → List Nat) (engine rate : String)
    (turns : List Turn) :
    assembleSegs (okSynth f) engine rate turns =
      (planRequests engine rate turns,
       .ok ((turns.map (turnSpec f engine rate)).flatten)) := by
  induction turns with
  | nil => rfl
  | cons t ts ih =>
    simp [assembleSegs, processTurn_ok, ih, planRequests, Except.map]

theorem runCalls_exists_ok (synth : Request → Except String (List Nat))
    (rs : List Request) (h : ∀ r ∈ rs, ∃ b, synth r = .ok b) :
    ∃ bs, runCalls synth rs = (rs, .ok bs) := by
  induction rs with
  | nil => exact ⟨[], rfl⟩
  | cons r rs ih =>
    rcases h r (by simp) with ⟨b, hb⟩
    rcases ih (fun r' hr' => h r' (by simp [hr'])) with ⟨bs, hbs⟩
    exact ⟨b :: bs, by simp [runCalls, hb, hbs, Except.map]⟩

theorem runCalls_fail (synth : Request → Except String (List Nat))
    (pre : List Request) (req : Request) (rest : List Request) (c : String)
    (hpre : ∀ r ∈ pre, ∃ b, synth r = .ok b) (hfail : synth req = .error c) :
    runCalls synth (pre ++ req :: rest) = (pre ++ [req], .error c) := by
  induction pre with
  | nil => simp [runCalls, hfail]
  | cons r pre ih =>
    rcases hpre r (by simp) with ⟨b, hb⟩
    have h2 := ih fun r' hr' => hpre r' (by simp [hr'])
    simp [runCalls, hb, h2, Except.map]

theorem turnRequests_voice (engine rate : String) (t : Turn) :
    ∀ r ∈ turnRequests engine rate t, r.voice = t.voice := by
  intro r hr
  rcases List.mem_map.mp hr with ⟨u, _, rfl⟩
  rfl

theorem processTurn_exists_ok (synth : Request → Except String (List Nat))
    (engine rate : String) (t : Turn)
    (h : ∀ r ∈ turnRequests engine rate t, ∃ b, synth r = .ok b) :
    ∃ segs, processTurn synth engine rate t =
      (turnRequests engine rate t, .ok segs) := by
  rcases runCalls_exists_ok synth _ h with ⟨bs, hbs⟩
  exact ⟨bs.map Segment.speech ++
    (if t.pause ≠ 0 then [Segment.silence (silenceLen t.pause)] else []),
    by simp only [processTurn, hbs]⟩

theorem processTurn_fail (synth : Request → Except String (List Nat))
    (engine rate : String) (t : Turn) (pre : List Request) (req : Request)
    (rest : List Request) (c : String)
    (hsplit : turnRequests engine rate t = pre ++ req :: rest)
    (hpre : ∀ r ∈ pre, ∃ b, synth r = .ok b) (hfail : synth req = .error c) :
    processTurn synth engine rate t = (pre ++ [req], .error ⟨req.voice, c⟩) := by
  have h1 := runCalls_fail synth pre req rest c hpre hfail
  have hv : req.voice = t.voice :=
    turnRequests_voice engine rate t req (hsplit ▸ by simp)
  simp [processTurn, hsplit, h1, hv]

theorem planRequests_cons (engine rate : String) (t : Turn) (ts : List Turn) :
    planRequests engine rate (t :: ts) =
      turnRequests engine rate t ++ planRequests engine rate ts := by
  simp [planRequests]

/-- C2: if, running over `turns`, every request in `pre` succeeds and the next
request `req` fails with cause `c`, then the run issues exactly the calls
`pre ++ [req]` — none beyond the failing one — produces no artifact, and the
surfaced error carries the offending voice id and the underlying cause. -/
theorem abort_on_first_failure (synth : Request → Except String (List Nat))
    (engine rate : String) (turns : List Turn) (pre : List Request)
    (req : Request) (rest : List Request) (c : String)
    (hplan : planRequests engine rate turns = pre ++ req :: rest)
    (hpre : ∀ r ∈ pre, ∃ b, synth r = .ok b)
    (hfail : synth req = .error c) :
    (assembleSegs synth engine rate turns).1 = pre ++ [req]
    ∧ (assembleSegs synth engine rate turns).2 = .error ⟨req.voice, c⟩
    ∧ (generate synth engine rate turns).2 = .error ⟨req.voice, c⟩ := by
  suffices hmain : (assembleSegs synth engine rate turns).1 = pre ++ [req]
      ∧ (assembleSegs synth engine rate turns).2 = .error ⟨req.voice, c⟩ by
    refine ⟨hmain.1, hmain.2, ?_⟩
    simp [generate, hmain.2, Except.map]
  induction turns generalizing pre rest with
  | nil =>
    rw [show planRequests engine rate [] = [] from rfl] at hplan
    exact absurd hplan.symm (by simp)
  | cons t ts ih =>
    rw [planRequests_cons] at hplan
    rcases List.append_eq_append_iff.mp hplan with ⟨a', ha1, ha2⟩ | ⟨c', hc1, hc2⟩
    · -- the first turn's calls all succeed; the failure is in a later turn
      have hA : ∀ r ∈ turnRequests engine rate t, ∃ b, synth r = .ok b :=
        fun r hr => hpre r (ha1 ▸ List.mem_append_left _ hr)
      rcases processTurn_exists_ok synth engine rate t hA with ⟨segs, hseg⟩
      have ha'ok : ∀ r ∈ a', ∃ b, synth r = .ok b :=
        fun r hr => hpre r (ha1 ▸ List.mem_append_right _ hr)
      rcases ih a' rest ha2 ha'ok with ⟨ih1, ih2⟩
      constructor
      · simp [assembleSegs, hseg, ih1, ha1, List.append_assoc]
      · simp [assembleSegs, hseg, ih2, Except.map]
    · cases c' with
      | nil =>
        -- the first turn's calls all succeed and `pre` is exactly that turn
        simp only [List.append_nil] at hc1
        simp only [List.nil_append] at hc2
        have hA : ∀ r ∈ turnRequests engine rate t, ∃ b, synth r = .ok b :=
          fun r hr => hpre r (hc1 ▸ hr)
        rcases processTurn_exists_ok synth engine rate t hA with ⟨segs, hseg⟩
        rcases ih [] rest hc2.symm (by intro r hr; cases hr) with ⟨ih1, ih2⟩
        constructor
        · simp [assembleSegs, hseg, ih1, hc1]
        · simp [assembleSegs, hseg, ih2, Except.map]
      | cons x c'' =>
        -- the failure happens inside the first turn
        injection hc2 with hx hrest
        subst hx
        have hp := processTurn_fail synth engine rate t pre req c'' c hc1 hpre hfail
        constructor
        · simp [assembleSegs, hp]
        · simp [assembleSegs, hp]

theorem abort_on_first_failure_witness :
    (assembleSegs (fun _ => .error "boom") "neural" "22050"
        [⟨"Joanna", "Hi", 0⟩]).2 = .error ⟨"Joanna", "boom"⟩ := by
  have h := abort_on_first_failure (fun _ => .error "boom") "neural" "22050"
    [⟨"Joanna", "Hi", 0⟩] [] ⟨"Hi", "Joanna", "neural", "22050"⟩ [] "boom"
    (by decide) (by intro r hr; cases hr) rfl
  exact h.2.1

theorem turnSpec_eq_nil (f : Request → List Nat) (engine rate : String) (t : Turn) :
    turnSpec f engine rate t = [] ↔ utterances t.lines = [] ∧ t.pause = 0 := by
  constructor
  · intro h
    rcases List.append_eq_nil.mp h with ⟨h1, h2⟩
    refine ⟨List.map_eq_nil_iff.mp h1, ?_⟩
    by_contra hp
    simp [hp] at h2
  · rintro ⟨h1, h2⟩
    simp [turnSpec, h1, h2]

theorem turnSpec_kind (f : Request → List Nat) (engine rate : String) (t : Turn) :
    (turnSpec f engine rate t).map Segment.kind =
      ((utterances t.lines).map fun _ => SegKind.speech) ++
        if t.pause ≠ 0 then [SegKind.silence] else [] := by
  simp [turnSpec, List.map_append, List.map_map, Function.comp_def,
    apply_ite (List.map Segment.kind), Segment.kind]

/-- C1: for every sequence of turns, a run with a synthesis function that
never fails produces, for each turn in order, one speech segment per
non-empty stripped line of its text in line order, followed by exactly one
silence segment iff the turn's pause is positive; a turn with no utterances
contributes only its silence (when its pause is positive) and no speech
segment. -/
theorem assemble_mirrors_turn_order (f : Request → List Nat)
    (engine rate : String) (turns : List Turn) :
    (assembleSegs (okSynth f) engine rate turns).2 =
      .ok ((turns.map fun t =>
        ((utterances t.lines).map fun u =>
          Segment.speech (f ⟨u, t.voice, engine, rate⟩)) ++
        if 0 < t.pause then [Segment.silence (silenceLen t.pause)] else []).flatten) := by
  rw [assembleSegs_ok]
  have h : (turnSpec f engine rate) = fun t =>
      ((utterances t.lines).map fun u =>
        Segment.speech (f ⟨u, t.voice, engine, rate⟩)) ++
      if 0 < t.pause then [Segment.silence (silenceLen t.pause)] else [] := by
    funext t
    simp [turnSpec, Nat.pos_iff_ne_zero]
  rw [h]

/-- C4: the line splitter returns exactly the stripped forms of the non-blank
lines of the input, in original order; every element is non-empty; the empty
string yields the empty sequence. -/
theorem lineSplitter_correct (s : String) :
    utterances s =
      ((pySplitlines s).filter fun l => pyStripStr l ≠ "").map pyStripStr
    ∧ (∀ u ∈ utterances s, u ≠ "")
    ∧ utterances "" = [] := by
  refine ⟨?_, ?_, by decide⟩
  · simp [utterances, List.filter_map, Function.comp_def]
  · intro u hu
    simp only [utterances, List.mem_filter, decide_not] at hu
    simpa using hu.2

/-- C3: a run over turns that produce no segments at all — no non-blank line
and a zero pause everywhere — returns the distinguished empty-dialogue
outcome, and otherwise (synthesis succeeding) an artifact; the run never
fails for any other reason. -/
theorem empty_dialogue_iff (f : Request → List Nat) (engine rate : String)
    (turns : List Turn) :
    ((generate (okSynth f) engine rate turns).2 = .ok .emptyDialogue ↔
      ∀ t ∈ turns, utterances t.lines = [] ∧ t.pause = 0)
    ∧ ((generate (okSynth f) engine rate turns).2 = .ok .emptyDialogue ∨
      ∃ b, (generate (okSynth f) engine rate turns).2 = .ok (.artifact b)) := by
  have hgen : (generate (okSynth f) engine rate turns).2 =
      .ok (if (turns.map (turnSpec f engine rate)).flatten = []
        then .emptyDialogue
        else .artifact ((((turns.map (turnSpec f engine rate)).flatten).map segBytes).flatten)) := by
    simp [generate, assembleSegs_ok, Except.map]
  constructor
  · rw [hgen]
    by_cases h : (turns.map (turnSpec f engine rate)).flatten = []
    · simp only [h, if_pos rfl]
      simp only [List.flatten_eq_nil_iff] at h
      constructor
      · intro _ t ht
        exact (turnSpec_eq_nil f engine rate t).mp (h _ (List.mem_map_of_mem _ ht))
      · intro _
        rfl
    · simp only [if_neg h]
      constructor
      · intro hcontr
        cases hcontr
      · intro hall
        exfalso
        apply h
        rw [List.flatten_eq_nil_iff]
        intro l hl
        rcases List.mem_map.mp hl with ⟨t, ht, rfl⟩
        exact (turnSpec_eq_nil f engine rate t).mpr (hall t ht)
  · rw [hgen]
    by_cases h : (turns.map (turnSpec f engine rate)).flatten = []
    · left
      simp [h]
    · right
      exact ⟨_, by rw [if_neg h]⟩

/-- C8: assembly is deterministic in its segment structure: a second run over
the same turns with the same settings and the same synthesis function is
identical, and even with a synthesis function returning different bytes the
sequence of segment kinds (speech vs silence) is the same. -/
theorem assembly_structure_deterministic (f g : Request → List Nat)
    (engine rate : String) (turns : List Turn) :
    assembleSegs (okSynth f) engine rate turns =
      assembleSegs (okSynth f) engine rate turns
    ∧ (assembleSegs (okSynth f) engine rate turns).2.map
        (fun segs => segs.map Segment.kind) =
      (assembleSegs (okSynth g) engine rate turns).2.map
        (fun segs => segs.map Segment.kind) := by
  refine ⟨rfl, ?_⟩
  simp only [assembleSegs_ok, Except.map, List.map_flatten, List.map_map]
  have h : (List.map Segment.kind ∘ turnSpec f engine rate) =
      (List.map Segment.kind ∘ turnSpec g engine rate) := by
    funext t
    simp only [Function.comp]
    rw [turnSpec_kind, turnSpec_kind]
  rw [h]

/-- C5 counterexample: at the slider-reachable pause 700 ms the appended
silence segment holds 15434 zero bytes — one fewer than
`22050 * 700 / 1000 = 15435` — because line 127 evaluates
`int(22050 * (silence_ms / 1000))` in floating point, dividing first; so the
silence count is not the exact `int(22050 * pauseAfterMs / 1000)`. -/
theorem silence_byte_count_counterexample :
    (processTurn (okSynth fun _ => []) "neural" "22050" ⟨"Joanna", "", 700⟩).2 =
      .ok [Segment.silence (silenceLen 700)]
    ∧ silenceLen 700 = 15434 ∧ 22050 * 700 / 1000 = 15435 := by
  refine ⟨?_, by decide, by decide⟩
  rw [processTurn_ok]
  congr 1

/-- C5 amended: for every turn with a positive pause, the silence segment
appended after its speech segments counts `silenceLen pause` zero bytes, the
exact value of the program's float evaluation
`int(22050 * (pause / 1000))`; the universally quantified `engine` and
`rate` do not occur in the silence term, so the count is independent of the
selected quality tier and sample rate and comes from the hard-coded 22050
constant.  On the pause slider's reachable values (multiples of 100 up to
3000) the count equals `22050 * pause / 1000`, except at 700, 1400, 2300 and
2800 ms where the float rounding makes it one byte fewer. -/
theorem silence_byte_count_float (f : Request → List Nat) (engine rate : String)
    (t : Turn) (h : t.pause ≠ 0) :
    (processTurn (okSynth f) engine rate t).2 =
      .ok (((utterances t.lines).map fun u =>
        Segment.speech (f ⟨u, t.voice, engine, rate⟩)) ++
        [Segment.silence (silenceLen t.pause)])
    ∧ segBytes (Segment.silence (silenceLen t.pause)) =
        List.replicate (silenceLen t.pause) 0
    ∧ (∀ p ∈ List.range 31, silenceLen (100 * p) =
        22050 * (100 * p) / 1000 -
          (if 100 * p = 700 ∨ 100 * p = 1400 ∨ 100 * p = 2300 ∨ 100 * p = 2800
           then 1 else 0)) := by
  refine ⟨?_, by simp [segBytes], by decide⟩
  rw [processTurn_ok]
  simp [turnSpec, h]

theorem silence_byte_count_float_witness :
    (processTurn (okSynth fun _ => []) "neural" "48000" ⟨"Joanna", "", 700⟩).2 =
      .ok [Segment.silence 15434] := by
  have h := silence_byte_count_float (fun _ => []) "neural" "48000"
    ⟨"Joanna", "", 700⟩ (by decide)
  rw [h.1]
  congr 1

/-- C6: a name is in the filtered voice list exactly when the catalog holds a
voice of that name whose language code equals the selected language and whose
supported engines contain the selected quality tier. -/
theorem voice_filter_membership (catalog : List Voice) (lang tier name : String) :
    name ∈ filterVoices catalog lang tier ↔
      ∃ v ∈ catalog, v.name = name ∧ v.languageCode = lang ∧
        tier ∈ v.supportedEngines := by
  unfold filterVoices
  rw [List.Perm.mem_iff (List.perm_insertionSort _ _), List.mem_map]
  constructor
  · rintro ⟨v, hv, rfl⟩
    rw [List.mem_filter] at hv
    rcases hv with ⟨hvc, hcond⟩
    simp only [Bool.and_eq_true, decide_eq_true_eq] at hcond
    exact ⟨v, hvc, rfl, hcond.1.symm, by simpa using hcond.2⟩
  · rintro ⟨v, hvc, rfl, hl, he⟩
    refine ⟨v, ?_, rfl⟩
    rw [List.mem_filter]
    exact ⟨hvc, by simp [hl, he]⟩

/-- C7: after the per-render reset, a speaker's voice is always a member of
the current filtered voice list; a speaker whose voice is still valid is left
entirely unchanged, and an invalidated voice is replaced by the first voice
of the filtered list with the speaker's lines and pause untouched. -/
theorem voice_reset_invariant (voices : List String) (sp : Turn)
    (hv : voices ≠ []) :
    (normalizeSpeaker voices sp).voice ∈ voices
    ∧ (sp.voice ∈ voices → normalizeSpeaker voices sp = sp)
    ∧ (sp.voice ∉ voices →
        (normalizeSpeaker voices sp).voice = voices.headD "")
    ∧ (normalizeSpeaker voices sp).lines = sp.lines
    ∧ (normalizeSpeaker voices sp).pause = sp.pause := by
  obtain ⟨v, vs, rfl⟩ : ∃ v vs, voices = v :: vs := by
    cases voices with
    | nil => exact absurd rfl hv
    | cons v vs => exact ⟨v, vs, rfl⟩
  by_cases h : sp.voice ∈ v :: vs
  · simp [normalizeSpeaker, h]
  · simp [normalizeSpeaker, h]

theorem voice_reset_invariant_witness :
    (normalizeSpeaker ["Joanna"] ⟨"Matthew", "Hi", 0⟩).voice ∈ ["Joanna"] :=
  (voice_reset_invariant ["Joanna"] ⟨"Matthew", "Hi", 0⟩ (by decide)).1

theorem eraseIdx_take_drop :
    ∀ (l : List Turn) (i : Nat), l.eraseIdx i = l.take i ++ l.drop (i + 1)
  | [], _ => by simp
  | _ :: _, 0 => by simp
  | a :: l, (i + 1) => by
    simp [List.eraseIdx, eraseIdx_take_drop l i]

/-- C10: removing the speaker at a valid index `i` yields exactly the
original list without that element — the speakers before `i` and after `i`,
with all their fields, in their original relative order — and the length
drops by one. -/
theorem remove_speaker_exact (speakers : List Turn) (i : Nat)
    (h : i < speakers.length) :
    removeSpeaker speakers i = speakers.take i ++ speakers.drop (i + 1)
    ∧ (removeSpeaker speakers i).length = speakers.length - 1 := by
  constructor
  · exact eraseIdx_take_drop speakers i
  · rw [removeSpeaker, eraseIdx_take_drop speakers i]
    simp only [List.length_append, List.length_take, List.length_drop]
    omega

theorem remove_speaker_exact_witness :
    removeSpeaker [⟨"Joanna", "Hi", 0⟩, ⟨"Matthew", "Yo", 200⟩] 0 =
      [⟨"Matthew", "Yo", 200⟩] := by
  have h := remove_speaker_exact
    [⟨"Joanna", "Hi", 0⟩, ⟨"Matthew", "Yo", 200⟩] 0 (by decide)
  rw [h.1]
  decide

theorem splitlinesCh_no_newline (l : List Char) (hne : l ≠ []) (h : '\n' ∉ l) :
    splitlinesCh l = [l] := by
  induction l with
  | nil => exact absurd rfl hne
  | cons c cs ih =>
    have hc : ¬(c = '\n') := fun e => h (by simp [e])
    cases cs with
    | nil =>
      have hstep : splitlinesCh [c] =
          if c = '\n' then [] :: splitlinesCh ([] : List Char)
          else
            match splitlinesCh ([] : List Char) with
            | [] => [[c]]
            | l :: ls => (c :: l) :: ls := rfl
      rw [hstep, if_neg hc]
      rfl
    | cons d ds =>
      have h2 : splitlinesCh (d :: ds) = [d :: ds] :=
        ih (by simp) fun hm => h (List.mem_cons_of_mem _ hm)
      have hstep : splitlinesCh (c :: d :: ds) =
          if c = '\n' then [] :: splitlinesCh (d :: ds)
          else
            match splitlinesCh (d :: ds) with
            | [] => [[c]]
            | l :: ls => (c :: l) :: ls := rfl
      rw [hstep, if_neg hc, h2]

theorem dropWhile_no_ws (m : List Char)
    (hm : ∀ c ∈ m, Char.isWhitespace c = false) :
    m.dropWhile Char.isWhitespace = m := by
  cases m with
  | nil => rfl
  | cons a as => simp [List.dropWhile_cons, hm a (by simp)]

theorem pyStrip_no_ws (l : List Char)
    (h : ∀ c ∈ l, Char.isWhitespace c = false) :
    pyStrip l = l := by
  unfold pyStrip
  rw [dropWhile_no_ws l h,
    dropWhile_no_ws l.reverse (fun c hc => h c (List.mem_reverse.mp hc)),
    List.reverse_reverse]

theorem utterances_single_no_ws (l : List Char) (hne : l ≠ [])
    (h : ∀ c ∈ l, Char.isWhitespace c = false) :
    utterances (String.mk l) = [String.mk l] := by
  have hnl : '\n' ∉ l := fun hm => by simpa using h '\n' hm
  unfold utterances pySplitlines pyStripStr
  rw [show (String.mk l).data = l from rfl, splitlinesCh_no_newline l hne hnl]
  simp [pyStrip_no_ws l h]
  exact fun e => hne (by simpa using congrArg String.data e)

theorem replicate3001_ne_nil : List.replicate 3001 'a' ≠ [] := by
  intro e
  have h0 := congrArg List.length e
  rw [List.length_replicate, List.length_nil] at h0
  omega

/-- C9 counterexample: a turn whose stripped text is 3001 characters long is
not stopped anywhere — the assembly run issues a synthesis request whose text
is longer than 3000 characters. -/
theorem char_limit_counterexample :
    ∃ req ∈ (assembleSegs (okSynth fun _ => []) "neural" "22050"
        [⟨"Joanna", String.mk (List.replicate 3001 'a'), 0⟩]).1,
      3000 < req.text.length := by
  have hlist : ∀ c ∈ List.replicate 3001 'a', Char.isWhitespace c = false := by
    intro c hc
    rw [List.eq_of_mem_replicate hc]
    decide
  have hu := utterances_single_no_ws (List.replicate 3001 'a') replicate3001_ne_nil hlist
  have hplan : planRequests "neural" "22050"
      [⟨"Joanna", String.mk (List.replicate 3001 'a'), 0⟩] =
      [⟨String.mk (List.replicate 3001 'a'), "Joanna", "neural", "22050"⟩] := by
    simp only [planRequests, List.map_cons, List.map_nil, List.flatten_cons,
      List.flatten_nil, List.append_nil, turnRequests]
    rw [hu]
    rfl
  have hlen : (String.mk (List.replicate 3001 'a')).length = 3001 := by
    rw [show (String.mk (List.replicate 3001 'a')).length =
        (List.replicate 3001 'a').length from rfl, List.length_replicate]
  rw [assembleSegs_ok]
  refine ⟨⟨String.mk (List.replicate 3001 'a'), "Joanna", "neural", "22050"⟩, ?_, ?_⟩
  · rw [hplan]
    exact List.mem_cons_self _ _
  · rw [show Request.text ⟨String.mk (List.replicate 3001 'a'), "Joanna", "neural",
        "22050"⟩ = String.mk (List.replicate 3001 'a') from rfl, hlen]
    omega

/-- C9 amended: the 3000-character limit is display-only. The presentation
layer computes the remaining count from the stripped text and switches the
counter to a warning exactly when the stripped length exceeds `MAX_CHARS`,
but stores the text unchanged, so longer text still reaches synthesis. -/
theorem char_limit_display_only :
    (∀ lines : String, storeLines lines = lines
      ∧ (remainingChars lines < 0 ↔ MAX_CHARS < charCount lines))
    ∧ ∃ t : Turn, MAX_CHARS < charCount t.lines
        ∧ ∃ req ∈ (assembleSegs (okSynth fun _ => []) "neural" "22050" [t]).1,
            MAX_CHARS < req.text.length := by
  have hlist : ∀ c ∈ List.replicate 3001 'a', Char.isWhitespace c = false := by
    intro c hc
    rw [List.eq_of_mem_replicate hc]
    decide
  have hu := utterances_single_no_ws (List.replicate 3001 'a') replicate3001_ne_nil hlist
  have hplan : planRequests "neural" "22050"
      [⟨"Joanna", String.mk (List.replicate 3001 'a'), 0⟩] =
      [⟨String.mk (List.replicate 3001 'a'), "Joanna", "neural", "22050"⟩] := by
    simp only [planRequests, List.map_cons, List.map_nil, List.flatten_cons,
      List.flatten_nil, List.append_nil, turnRequests]
    rw [hu]
    rfl
  constructor
  · intro lines
    refine ⟨rfl, ?_⟩
    unfold remainingChars MAX_CHARS
    omega
  · refine ⟨⟨"Joanna", String.mk (List.replicate 3001 'a'), 0⟩, ?_, ?_⟩
    · unfold charCount MAX_CHARS
      rw [show (⟨"Joanna", String.mk (List.replicate 3001 'a'), 0⟩ : Turn).lines =
          String.mk (List.replicate 3001 'a') from rfl,
        show (String.mk (List.replicate 3001 'a')).data = List.replicate 3001 'a'
          from rfl, pyStrip_no_ws _ hlist, List.length_replicate]
      omega
    · rw [assembleSegs_ok, hplan]
      refine ⟨⟨String.mk (List.replicate 3001 'a'), "Joanna", "neural", "22050"⟩,
        List.mem_cons_self _ _, ?_⟩
      rw [show Request.text ⟨String.mk (List.replicate 3001 'a'), "Joanna",
          "neural", "22050"⟩ = String.mk (List.replicate 3001 'a') from rfl,
        show (String.mk (List.replicate 3001 'a')).length =
          (List.replicate 3001 'a').length from rfl, List.length_replicate]
      unfold MAX_CHARS
      omega
